import Mathlib

/-!
# Verification of the Didact incremental mounting core

A shallow embedding of the repository's source (`src/Didact/createElement`,
`src/Didact/render`, `src/Didact.js`) together with the fiber-based
unit-of-work traversal that the source leaves as `// todo` and that the
repository's notes and the specification describe (marked `Modelled from
the spec:` below).

Modelling conventions:
* JavaScript scalar values (`typeof child !== 'object'`) are `Prim`.
* An element is `Element.mk type props children`; the JS props object
  `{ ...props, children: [...] }` is represented by the pair of the
  association list `props` (which, after the spread is overwritten by the
  `children:` field, never contains the key `"children"`) and the list
  `children`.
* A child argument of `createElement` is a `Child`: a scalar, an element
  object, or `null` (which has JS `typeof` `'object'` without being an
  element — it is passed through the `typeof child === 'object'` test).
* The host document tree is an arena `List DomNode`; node handles are
  indices into the arena; index 0 is the mount container.  A text node is
  a `DomNode` whose `tag` is `none`.
* The scheduler's `deadline` is modelled by the finite list of values
  `deadline.timeRemaining()` will return; once the list is exhausted the
  remaining time reads as `0` (the budget is spent).
-/

namespace Didact

/-- A JavaScript value with `typeof` different from `'object'`:
these are the values `createElement` wraps into text elements. -/
inductive Prim where
  | str (s : String)
  | num (n : Int)
  | boolV (b : Bool)
deriving DecidableEq, Repr

mutual
/-- An element object `{ type, props: { ..., children } }` as produced by
`createElement` (source: `src/unnamed/part_001`, `createElement`).  `props`
holds every key of the props object except `"children"`; `children` holds
the value of the `"children"` key. -/
inductive Element where
  | mk (type : String) (props : List (String × Prim)) (children : List Child)

/-- A possible entry of a children array: an element object, the value
`null` (JS `typeof null = 'object'`), or a scalar. -/
inductive Child where
  | elemC (e : Element)
  | nullC
  | primC (p : Prim)
end

def Element.type : Element → String
  | .mk t _ _ => t

def Element.props : Element → List (String × Prim)
  | .mk _ p _ => p

def Element.children : Element → List Child
  | .mk _ _ cs => cs

/-- `typeof child === 'object'` — true for element objects and for `null`. -/
def Child.isObj : Child → Bool
  | .elemC _ => true
  | .nullC => true
  | .primC _ => false

/-- Whether a children entry is an element object at all
(has a kind, an attribute mapping and a children sequence). -/
def Child.isElement : Child → Bool
  | .elemC _ => true
  | _ => false

/-- Source `createTextElement` (`src/unnamed/part_001`): wraps a scalar
into `{ type: 'TEXT_ELEMENT', props: { nodeValue: text, children: [] } }`. -/
def createTextElement (text : Prim) : Element :=
  .mk "TEXT_ELEMENT" [("nodeValue", text)] []

/-- The body of the `children.map` in the source `createElement`:
`typeof child === 'object' ? child : createTextElement(child)`. -/
def wrapChild : Child → Child
  | .primC p => .elemC (createTextElement p)
  | c => c

/-- Source `createElement` (`src/unnamed/part_001`):
`{ type, props: { ...props, children: children.map(...) } }`.
The `children:` field of the object literal overwrites any `children` key
spread in from `props`, which in our representation of the props object
(see module docstring) is the filter below. -/
def createElement (type : String) (props : List (String × Prim))
    (children : List Child) : Element :=
  .mk type (props.filter fun kv => kv.1 != "children")
    (children.map wrapChild)

/-! ## The host document tree -/

/-- A host node: `tag = none` is a text node (`document.createTextNode`),
`tag = some t` a tagged node (`document.createElement(t)`).  `props` are
the properties assigned onto the node, `childNodes` the arena indices of
its appended children, in append order. -/
structure DomNode where
  tag : Option String
  props : List (String × Prim)
  childNodes : List Nat
deriving DecidableEq, Repr

/-- `container.appendChild(child)` on the arena: appends index `c` to the
child list of node `p`. -/
def appendChildAt (nodes : List DomNode) (p c : Nat) : List DomNode :=
  match nodes[p]? with
  | some n => nodes.set p { n with childNodes := n.childNodes ++ [c] }
  | none => nodes

/-- Source `render`, lines 28–39 of `src/unnamed/part_001`: create the
host node (`document.createTextNode('')` for `TEXT_ELEMENT`, otherwise
`document.createElement(element.type)`) and assign onto it every prop
whose key passes `isProperty = key => key !== 'children'`. -/
def createDom (e : Element) : DomNode :=
  { tag := if e.type == "TEXT_ELEMENT" then none else some e.type
    props := e.props.filter fun kv => kv.1 != "children"
    childNodes := [] }

mutual
/-- Source `render` (`src/unnamed/part_001`): synchronously creates the
node, recursively renders every child into it, then appends the node to
the container.  (On a non-element child the source would raise; such
children are never produced by well-formed input and the embedding leaves
the arena unchanged there.) -/
def render : Element → Nat → List DomNode → List DomNode
  | .mk t p cs, container, nodes =>
    let domIdx := nodes.length
    let nodes1 := nodes ++ [createDom (.mk t p cs)]
    let nodes2 := renderChildren cs domIdx nodes1
    appendChildAt nodes2 container domIdx

def renderChildren : List Child → Nat → List DomNode → List DomNode
  | [], _, nodes => nodes
  | .elemC c :: r, dom, nodes => renderChildren r dom (render c dom nodes)
  | .nullC :: r, dom, nodes => renderChildren r dom nodes
  | .primC _ :: r, dom, nodes => renderChildren r dom nodes
end

/-! ## Well-formedness and sizes of element trees -/

mutual
/-- A well-formed element: every entry of its children sequence is itself
a well-formed element (the data-model invariant of the spec). -/
def wfElem : Element → Bool
  | .mk _ _ cs => wfChildren cs

def wfChildren : List Child → Bool
  | [] => true
  | .elemC e :: r => wfElem e && wfChildren r
  | .nullC :: _ => false
  | .primC _ :: _ => false
end

mutual
/-- Number of elements in the tree (one unit of work per element). -/
def elemCount : Element → Nat
  | .mk _ _ cs => 1 + childCount cs

def childCount : List Child → Nat
  | [] => 0
  | .elemC e :: r => elemCount e + childCount r
  | .nullC :: r => childCount r
  | .primC _ :: r => childCount r
end

/-- The element entries of a children sequence. -/
def elemsOf (cs : List Child) : List Element :=
  cs.filterMap fun c => match c with
    | .elemC e => some e
    | _ => none

/-! ## Fibers and the scheduler state

The fiber tree is an arena `List Fiber`; `parent`, `child` and `sibling`
are arena indices; `hostNode` is an index into the host-node arena. -/

structure Fiber where
  element : Element
  parent : Option Nat
  child : Option Nat
  sibling : Option Nat
  hostNode : Option Nat

/-- The scheduler state: the fiber arena, the host-node arena (index 0 is
the mount container) and the module-level `nextUnitOfWork` cursor. -/
structure MState where
  fibers : List Fiber
  nodes : List DomNode
  nextUnitOfWork : Option Nat

/-- State before any mount: no fibers, an empty container node, no work. -/
def initState : MState :=
  { fibers := [], nodes := [{ tag := some "ROOT", props := [], childNodes := [] }]
    nextUnitOfWork := none }

def setCursor (s : MState) (c : Option Nat) : MState :=
  { s with nextUnitOfWork := c }

/-- Modelled from the spec: `render` is, per the repository's Step 4 notes
and spec §4.2, to create the root fiber — no `hostNode` of its own — and
set it as the sole pending unit of work (`mount` in the spec's interface).
This code is absent from `src/`: the source's `render` is still the
synchronous recursive version. -/
def mount (e : Element) (s : MState) : MState :=
  { s with
    fibers := [{ element := e, parent := none, child := none, sibling := none
                 hostNode := none }]
    nextUnitOfWork := some 0 }

/-- The sibling chain of child fibers created when fiber `parentIdx` is
processed: each links to the next one allocated at consecutive indices
starting at `start`; the last has no sibling. -/
def makeChildFibers (parentIdx : Nat) : Nat → List Element → List Fiber
  | _, [] => []
  | start, e :: rest =>
    { element := e, parent := some parentIdx, child := none
      sibling := if rest.isEmpty then none else some (start + 1)
      hostNode := none } :: makeChildFibers parentIdx (start + 1) rest

/-- The walk of `ascend` with explicit fuel (structural recursion, so
that the kernel can evaluate the scheduler on concrete states).  In every
reachable arena parents precede their children, so each move strictly
decreases the index — the guard `p < i` makes this unconditional — and
fuel `i + 1` always suffices. -/
def ascendAux (fibers : List Fiber) : Nat → Nat → Option Nat
  | 0, _ => none
  | fuel + 1, i =>
    match fibers[i]? with
    | none => none
    | some f =>
      match f.sibling with
      | some sb => some sb
      | none =>
        match f.parent with
        | none => none
        | some p => if p < i then ascendAux fibers fuel p else none

/-- Modelled from the spec (§4.3c, the "uncle rule"): starting at fiber
`i`, take its sibling if set, otherwise walk up the parent links; when the
root's ancestry is exhausted there is no next unit of work. -/
def ascend (fibers : List Fiber) (i : Nat) : Option Nat :=
  ascendAux fibers (i + 1) i

/-- Modelled from the spec (§4.3 a–b): the fiber arena after processing
fiber `i` — the fiber gets its host node handle (the node is created at
index `nodesLen`) unless it is the root, child fibers are allocated for
its element children, and the first of them becomes `fiber.child`. -/
def unitFibers (fibers : List Fiber) (nodesLen : Nat) (i : Nat) : List Fiber :=
  match fibers[i]? with
  | none => fibers
  | some f =>
    let kids := elemsOf f.element.children
    let start := fibers.length
    let f1 := if f.parent.isSome then { f with hostNode := some nodesLen } else f
    let f2 := if kids.isEmpty then f1 else { f1 with child := some start }
    fibers.set i f2 ++ makeChildFibers i start kids

/-- The host node a fiber's children are appended under: the fiber's
`hostNode`, with the container (index 0) standing in when the fiber owns
no host node of its own (the root fiber). -/
def resolvedHost (fibers : List Fiber) (iP : Nat) : Nat :=
  match fibers[iP]? with
  | some pf => pf.hostNode.getD 0
  | none => 0

/-- Modelled from the spec (§4.3a): the host arena after processing fiber
`i` — skipped for the root fiber; otherwise create the host node for the
fiber's element and append it under the parent fiber's host node, the
container standing in when the parent owns no host node (the root). -/
def unitNodes (fibers : List Fiber) (nodes : List DomNode) (i : Nat) :
    List DomNode :=
  match fibers[i]? with
  | none => nodes
  | some f =>
    match f.parent with
    | none => nodes
    | some p =>
      appendChildAt (nodes ++ [createDom f.element]) (resolvedHost fibers p)
        nodes.length

/-- Steps a and b of processing one fiber (no cursor update). -/
def doUnit (s : MState) (i : Nat) : MState :=
  { s with fibers := unitFibers s.fibers s.nodes.length i
           nodes := unitNodes s.fibers s.nodes i }

/-- Modelled from the spec: `performUnitOfWork` is `// todo` in the
source (`src/src/Didact.js`); this is the three sub-steps of §4.3 —
materialize the host node, expand the children into fibers, and select
the next unit of work (child first, else sibling-or-uncle via `ascend`). -/
def performUnitOfWork (s : MState) (i : Nat) : MState :=
  let s1 := doUnit s i
  let next :=
    match s.fibers[i]? with
    | none => none
    | some f =>
      if (elemsOf f.element.children).isEmpty then ascend s1.fibers i
      else some s.fibers.length
  { s1 with nextUnitOfWork := next }

/-- One iteration of the `while` loop of `workLoop`: process the pending
fiber, if any, and store the unit it returns in `nextUnitOfWork`. -/
def step (s : MState) : MState :=
  match s.nextUnitOfWork with
  | none => s
  | some i => performUnitOfWork s i

def steps : Nat → MState → MState
  | 0, s => s
  | n + 1, s => steps n (step s)

/-- Observable actions of one scheduler invocation. -/
inductive Event where
  | unit (i : Nat)
  | rearm
deriving DecidableEq, Repr

/-- The `while (nextUnitOfWork && !shouldYield)` loop of the source
`workLoop` (`src/src/Didact.js`): `d` is the list of values the deadline's
`timeRemaining()` will produce (0 once exhausted); `shouldYield` starts
false, so the deadline is only consulted after a unit has been processed.
Returns the state together with the processed units, in order. -/
def workLoopGo : List Int → MState → MState × List Event
  | [], s =>
    match s.nextUnitOfWork with
    | none => (s, [])
    | some i => (performUnitOfWork s i, [Event.unit i])
  | r :: rest, s =>
    match s.nextUnitOfWork with
    | none => (s, [])
    | some i =>
      let s1 := performUnitOfWork s i
      if r < 1 then (s1, [Event.unit i])
      else
        let p := workLoopGo rest s1
        (p.1, Event.unit i :: p.2)

/-- Source `workLoop` (`src/src/Didact.js`): run the loop, then
unconditionally `requestIdleCallback(workLoop)` — the trailing
`Event.rearm`. -/
def workLoop (d : List Int) (s : MState) : MState × List Event :=
  let p := workLoopGo d s
  (p.1, p.2 ++ [Event.rearm])

/-- `n` scheduler invocations, each granted a budget that yields after the
first fiber (`timeRemaining` reads 0 throughout), with all events
concatenated in order. -/
def runInvocations : Nat → MState → MState × List Event
  | 0, s => (s, [])
  | n + 1, s =>
    let p := workLoop [] s
    let q := runInvocations n p.1
    (q.1, p.2 ++ q.2)

/-- Indices of the fibers processed in an event list. -/
def unitsOf (evs : List Event) : List Nat :=
  evs.filterMap fun ev => match ev with
    | .unit i => some i
    | .rearm => none

/-! ## The scheduler against a failing host

For the error-handling claims the host's property-assignment capability
is a parameter `ok : String → Prim → Bool`; assigning a property the host
rejects raises, carrying the offending key/value pair.  `Except.error`
carries the raised value together with the state at the moment of the
failure (no rollback: mutations already performed stay). -/

/-- Assign the properties in order; on the first rejected one, raise it,
remembering the properties already assigned onto the node. -/
def assignProps (ok : String → Prim → Bool) :
    List (String × Prim) →
    Except ((String × Prim) × List (String × Prim)) (List (String × Prim))
  | [] => .ok []
  | kv :: rest =>
    if ok kv.1 kv.2 then
      match assignProps ok rest with
      | .ok l => .ok (kv :: l)
      | .error (v, l) => .error (v, kv :: l)
    else .error (kv, [])

/-- Materialization against the failing host: create the node, then copy
every non-`children` attribute; a rejected assignment raises, leaving the
node created but only partially configured (and, since the append comes
after the copying, not yet attached). -/
def createDomE (ok : String → Prim → Bool) (e : Element) :
    Except ((String × Prim) × DomNode) DomNode :=
  let tag : Option String :=
    if e.type == "TEXT_ELEMENT" then none else some e.type
  match assignProps ok (e.props.filter fun kv => kv.1 != "children") with
  | .ok l => .ok { tag := tag, props := l, childNodes := [] }
  | .error (v, l) => .error (v, { tag := tag, props := l, childNodes := [] })

/-- `performUnitOfWork` against the failing host.  On a raised property
assignment the failure propagates; the state in the error records the
partially-configured, unattached node, while the fiber arena and the
cursor are left exactly as they were (the assignment
`nextUnitOfWork = performUnitOfWork(...)` never happens). -/
def performUnitOfWorkE (ok : String → Prim → Bool) (s : MState) (i : Nat) :
    Except ((String × Prim) × MState) MState :=
  match s.fibers[i]? with
  | none => .ok (performUnitOfWork s i)
  | some f =>
    match f.parent with
    | none => .ok (performUnitOfWork s i)
    | some _ =>
      match createDomE ok f.element with
      | .ok _ => .ok (performUnitOfWork s i)
      | .error (v, halfNode) =>
        .error (v, { s with nodes := s.nodes ++ [halfNode] })

/-- The `while` loop of `workLoop` against the failing host: an exception
from `performUnitOfWork` aborts the loop; the error carries the raised
value, the state at the failure, and the units completed before it. -/
def workLoopGoE (ok : String → Prim → Bool) :
    List Int → MState →
    Except ((String × Prim) × MState × List Event) (MState × List Event)
  | [], s =>
    match s.nextUnitOfWork with
    | none => .ok (s, [])
    | some i =>
      match performUnitOfWorkE ok s i with
      | .ok s1 => .ok (s1, [Event.unit i])
      | .error (v, se) => .error (v, se, [])
  | r :: rest, s =>
    match s.nextUnitOfWork with
    | none => .ok (s, [])
    | some i =>
      match performUnitOfWorkE ok s i with
      | .error (v, se) => .error (v, se, [])
      | .ok s1 =>
        if r < 1 then .ok (s1, [Event.unit i])
        else
          match workLoopGoE ok rest s1 with
          | .ok (s2, evs) => .ok (s2, Event.unit i :: evs)
          | .error (v, se, evs) => .error (v, se, Event.unit i :: evs)

/-- `workLoop` against the failing host: an exception unwinds past the
trailing `requestIdleCallback(workLoop)`, so no re-arm happens on the
error path and the raised value reaches the host unmodified. -/
def workLoopE (ok : String → Prim → Bool) (d : List Int) (s : MState) :
    Except ((String × Prim) × MState × List Event) (MState × List Event) :=
  match workLoopGoE ok d s with
  | .ok (s1, evs) => .ok (s1, evs ++ [Event.rearm])
  | .error x => .error x

/-! ## The host tree as a tree, and the expected mount result -/

/-- A host subtree read back out of the node arena. -/
inductive HostTree where
  | node (tag : Option String) (props : List (String × Prim))
      (children : List HostTree)

/-- Decode the arena subtrees rooted at the given indices.  Structural
fuel (consumed on every decoded node) keeps this kernel-computable; any
fuel at least the arena size succeeds on arenas built by the scheduler. -/
def decodeList (nodes : List DomNode) : Nat → List Nat → Option (List HostTree)
  | _, [] => some []
  | 0, _ :: _ => none
  | fuel + 1, j :: js =>
    match nodes[j]? with
    | none => none
    | some n =>
      match decodeList nodes fuel n.childNodes, decodeList nodes fuel js with
      | some kids, some rest => some (.node n.tag n.props kids :: rest)
      | _, _ => none

mutual
/-- The host subtree that mounting an element must produce: the node
`createDom` builds for it, carrying the host trees of its children. -/
def hostTreeOf : Element → HostTree
  | .mk t p cs =>
    .node (if t == "TEXT_ELEMENT" then none else some t)
      (p.filter fun kv => kv.1 != "children") (hostTreesOf cs)

/-- The host trees of the element entries of a children sequence. -/
def hostTreesOf : List Child → List HostTree
  | [] => []
  | .elemC e :: r => hostTreeOf e :: hostTreesOf r
  | .nullC :: r => hostTreesOf r
  | .primC _ :: r => hostTreesOf r
end

/-- Arena indices forward: every child index exceeds its parent's index
(true of every arena the scheduler builds, since a node is always
appended under a previously created node). -/
def Forward (nodes : List DomNode) : Prop :=
  ∀ m (n : DomNode), nodes[m]? = some n → ∀ j ∈ n.childNodes, m < j

/-! ## A recursive reference run of the scheduler

`processT e s i` performs, in one recursion, exactly the arena mutations
that the step machine performs across the `elemCount e` units of work of
the subtree rooted at fiber `i` (whose element is `e`); `processL`
likewise for a sibling chain starting at fiber `j`.  The simulation and
correctness theorems below relate them to `steps`. -/

mutual
def processT : Element → MState → Nat → MState
  | .mk _ _ cs, s, i => processL cs (doUnit s i) s.fibers.length

def processL : List Child → MState → Nat → MState
  | [], s, _ => s
  | .elemC c :: r, s, j => processL r (processT c s j) (j + 1)
  | .nullC :: r, s, j => processL r s j
  | .primC _ :: r, s, j => processL r s j
end

/-- The arena indices at which the root nodes of the subtrees mounted for
a children sequence are created, when the first is created at `base`. -/
def rootIdxs : List Child → Nat → List Nat
  | [], _ => []
  | .elemC c :: r, base => base :: rootIdxs r (base + elemCount c)
  | .nullC :: r, base => rootIdxs r base
  | .primC _ :: r, base => rootIdxs r base

/-- The freshly expanded, unprocessed sibling chain of child fibers for
the children sequence `cs`, sitting at consecutive indices from `j` with
common parent `iP`: exactly what `makeChildFibers` allocates. -/
def ChainAt (fb : List Fiber) : Nat → List Child → Nat → Prop
  | _, [], _ => True
  | j, .elemC c :: r, iP =>
    fb[j]? = some { element := c, parent := some iP, child := none
                    sibling := if r.isEmpty then none else some (j + 1)
                    hostNode := none } ∧
    ChainAt fb (j + 1) r iP
  | _, .nullC :: _, _ => False
  | _, .primC _ :: _, _ => False

/-! ## The example tree of the spec (§8) -/

/-- `div → h1 → [p, a]; sibling h2` — the three-level tree of the spec. -/
def exampleTree : Element :=
  createElement "div" []
    [.elemC (createElement "h1" []
        [.elemC (createElement "p" [] []), .elemC (createElement "a" [] [])]),
     .elemC (createElement "h2" [] [])]

/-- A host that rejects assigning the `style` property. -/
def c7ok : String → Prim → Bool := fun k _ => !(k == "style")

/-- The state one invocation after mounting `div → h1[style]`: the
pending fiber is the `h1` fiber, whose materialization `c7ok` rejects. -/
def c7state : MState :=
  (workLoop [] (mount (createElement "div" []
    [.elemC (createElement "h1"
      [("style", .str "background: salmon")] [])]) initState)).1

/-- The state at the moment the `style` assignment is rejected: the `h1`
node exists, unconfigured and unattached; nothing else has changed. -/
def c7errState : MState :=
  { c7state with
    nodes := c7state.nodes ++ [{ tag := some "h1", props := [], childNodes := [] }] }

/-- Six one-fiber budgets: enough invocations to mount `exampleTree`. -/
def c2ds : List (List Int) := [[], [], [], [], [], []]

/-- The state after running those six invocations from a fresh mount. -/
def c2final : MState :=
  c2ds.foldl (fun s d => (workLoop d s).1) (mount exampleTree initState)

/-! ## Basic lemmas -/

@[simp] theorem Element.type_mk (t : String) (p : List (String × Prim))
    (cs : List Child) : (Element.mk t p cs).type = t := rfl

@[simp] theorem Element.props_mk (t : String) (p : List (String × Prim))
    (cs : List Child) : (Element.mk t p cs).props = p := rfl

@[simp] theorem Element.children_mk (t : String) (p : List (String × Prim))
    (cs : List Child) : (Element.mk t p cs).children = cs := rfl

/-- The result of `ascendAux` does not depend on the fuel, as long as the
fuel exceeds the starting index. -/
theorem ascendAux_congr (fibers : List Fiber) :
    ∀ fuel1 fuel2 i, i < fuel1 → i < fuel2 →
      ascendAux fibers fuel1 i = ascendAux fibers fuel2 i := by
  intro fuel1
  induction fuel1 with
  | zero => intro fuel2 i h1; omega
  | succ f ih =>
    intro fuel2 i h1 h2
    cases fuel2 with
    | zero => omega
    | succ g =>
      simp only [ascendAux]
      cases hfi : fibers[i]? with
      | none => rfl
      | some fb =>
        obtain ⟨el, par, ch, sib, hn⟩ := fb
        cases sib with
        | some sb => rfl
        | none =>
          cases par with
          | none => rfl
          | some p =>
            by_cases hp : p < i
            · simpa [hp] using ih g p (by omega) (by omega)
            · simp [hp]

/-- The recursive unfolding of `ascend`: sibling if set, else recurse at
the parent. -/
theorem ascend_eq (fibers : List Fiber) (i : Nat) :
    ascend fibers i =
      match fibers[i]? with
      | none => none
      | some f =>
        match f.sibling with
        | some sb => some sb
        | none =>
          match f.parent with
          | none => none
          | some p => if p < i then ascend fibers p else none := by
  show ascendAux fibers (i + 1) i = _
  simp only [ascendAux]
  cases hfi : fibers[i]? with
  | none => rfl
  | some fb =>
    obtain ⟨el, par, ch, sib, hn⟩ := fb
    cases sib with
    | some sb => rfl
    | none =>
      cases par with
      | none => rfl
      | some p =>
        by_cases hp : p < i
        · simpa [hp] using ascendAux_congr fibers i (p + 1) p hp (Nat.lt_succ_self p)
        · simp [hp]

/-- C1: For the element tree div → h1 → [p, a] with sibling h2 under div,
repeatedly invoking the scheduler's work loop with a budget that allows
exactly one fiber per invocation visits the fibers in the exact pre-order
depth-first order div, h1, p, a, h2, and no fiber is ever visited twice. -/
theorem claim_C1 :
    (unitsOf (runInvocations 6 (mount exampleTree initState)).2 = [0, 1, 3, 4, 2]) ∧
    ((unitsOf (runInvocations 6 (mount exampleTree initState)).2).map
        (fun i =>
          (((runInvocations 6 (mount exampleTree initState)).1.fibers[i]?).map
            (fun f => f.element.type)).getD "")
      = ["div", "h1", "p", "a", "h2"]) ∧
    (unitsOf (runInvocations 6 (mount exampleTree initState)).2).Nodup ∧
    (runInvocations 6 (mount exampleTree initState)).1.nextUnitOfWork = none := by
  refine ⟨by decide, by decide, by decide, by decide⟩

/-- C3: The exposed mount entry point (`render` in the source) does NOT
defer work: evaluated on the element `createElement("div", {})` and the
empty container, the call synchronously creates a host node and appends
it to the container before returning — the host tree is modified during
the mount call itself, and no fiber or pending cursor is ever involved
(the source `render` never touches `nextUnitOfWork`). -/
theorem claim_C3_code_bug :
    render (createElement "div" [] []) 0 initState.nodes =
      [{ tag := some "ROOT", props := [], childNodes := [1] },
       { tag := some "div", props := [], childNodes := [] }] ∧
    render (createElement "div" [] []) 0 initState.nodes ≠ initState.nodes := by
  refine ⟨by decide, by decide⟩

/-- C4: every scalar child `c` handed to `createElement` appears, at its
position, as a TEXT element whose single attribute (`nodeValue`, the
spec's `value`) holds `c`, with an empty children sequence. -/
theorem claim_C4 (t : String) (ps : List (String × Prim)) (cs : List Child)
    (j : Nat) (c : Prim) (h : cs[j]? = some (.primC c)) :
    (createElement t ps cs).children[j]? = some (.elemC (createTextElement c)) ∧
    (createTextElement c).props = [("nodeValue", c)] ∧
    (createTextElement c).children = [] := by
  refine ⟨?_, rfl, rfl⟩
  simp [createElement, Element.children, List.getElem?_map, h, wrapChild]

theorem claim_C4_witness :
    (createElement "h1" [("title", Prim.str "foo")]
        [Child.primC (Prim.str "Hello")]).children[0]?
      = some (.elemC (createTextElement (Prim.str "Hello"))) ∧
    (createTextElement (Prim.str "Hello")).props
      = [("nodeValue", Prim.str "Hello")] ∧
    (createTextElement (Prim.str "Hello")).children = [] :=
  claim_C4 "h1" [("title", Prim.str "foo")] [Child.primC (Prim.str "Hello")]
    0 (Prim.str "Hello") rfl

/-- C5 counterexample: `null` has JS `typeof` `'object'`, so
`createElement` passes it through unwrapped — the returned children
sequence contains a raw non-element value. -/
theorem claim_C5_counterexample :
    (createElement "div" [] [Child.nullC]).children = [Child.nullC] ∧
    Child.isElement Child.nullC = false :=
  ⟨rfl, rfl⟩

/-- C5 (amended): every non-object child is wrapped into a TEXT element,
and object-typed children are passed through unchanged; hence whenever
every object-typed child supplied is itself an element, every entry of
the returned children sequence is an element.  (A non-element object such
as `null` is passed through raw.) -/
theorem claim_C5_amended (t : String) (ps : List (String × Prim))
    (cs : List Child)
    (h : ∀ c ∈ cs, c.isObj = true → c.isElement = true) :
    ∀ entry ∈ (createElement t ps cs).children, entry.isElement = true := by
  intro entry hentry
  simp only [createElement, Element.children, List.mem_map] at hentry
  obtain ⟨c, hc, rfl⟩ := hentry
  cases c with
  | elemC e => rfl
  | nullC => exact h _ hc rfl
  | primC p => rfl

theorem claim_C5_witness :
    (∀ c ∈ [Child.primC (Prim.str "x"),
            Child.elemC (createTextElement (Prim.str "y"))],
        c.isObj = true → c.isElement = true) ∧
    ∀ entry ∈ (createElement "div" []
        [Child.primC (Prim.str "x"),
         Child.elemC (createTextElement (Prim.str "y"))]).children,
      entry.isElement = true :=
  ⟨by decide, claim_C5_amended "div" [] _ (by decide)⟩

/-- C9: materializing a host node for an element creates a text-node
variant exactly when the element's kind is the TEXT marker and a tagged
node of that kind otherwise, and assigns exactly the element's attributes
other than the reserved `children` key (that key is never assigned).
`createDom` is the materialization step of the source `render`
(lines 28–39 of `src/unnamed/part_001`). -/
theorem claim_C9 (e : Element) :
    (e.type = "TEXT_ELEMENT" → (createDom e).tag = none) ∧
    (e.type ≠ "TEXT_ELEMENT" → (createDom e).tag = some e.type) ∧
    (∀ kv : String × Prim, kv ∈ e.props → kv.1 ≠ "children" →
      kv ∈ (createDom e).props) ∧
    (∀ kv : String × Prim, kv ∈ (createDom e).props →
      kv ∈ e.props ∧ kv.1 ≠ "children") := by
  refine ⟨fun h => ?_, fun h => ?_, fun kv h1 h2 => ?_, fun kv h => ?_⟩
  · simp [createDom, h]
  · simp [createDom, h]
  · simpa [createDom, List.mem_filter] using ⟨h1, h2⟩
  · simpa [createDom, List.mem_filter] using h

theorem claim_C9_witness :
    (createDom (Element.mk "h1"
        [("title", Prim.str "foo"), ("children", Prim.str "junk")] [])).tag
      = some "h1" ∧
    ("title", Prim.str "foo") ∈ (createDom (Element.mk "h1"
        [("title", Prim.str "foo"), ("children", Prim.str "junk")] [])).props ∧
    ¬ ("children", Prim.str "junk") ∈ (createDom (Element.mk "h1"
        [("title", Prim.str "foo"), ("children", Prim.str "junk")] [])).props :=
  ⟨(claim_C9 _).2.1 (by decide),
   (claim_C9 _).2.2.1 _ (by simp) (by decide),
   fun h => ((claim_C9 _).2.2.2 _ h).2 rfl⟩

/-- C10: even when the attribute mapping itself contains a `children`
key, the returned element's children field is the wrapped variadic child
sequence — the object literal's `children:` field overwrites the spread —
and no `children` key survives into the attribute part. -/
theorem claim_C10 (t : String) (ps : List (String × Prim)) (cs : List Child)
    (v : Prim) (_hv : ("children", v) ∈ ps) :
    (createElement t ps cs).children = cs.map wrapChild ∧
    ∀ w : Prim, ("children", w) ∉ (createElement t ps cs).props := by
  refine ⟨rfl, fun w hw => ?_⟩
  simp [createElement, Element.props, List.mem_filter] at hw

theorem claim_C10_witness :
    (createElement "div" [("children", Prim.str "haha")]
        [Child.primC (Prim.str "kid")]).children
      = [Child.primC (Prim.str "kid")].map wrapChild ∧
    ∀ w : Prim, ("children", w) ∉ (createElement "div"
        [("children", Prim.str "haha")] [Child.primC (Prim.str "kid")]).props :=
  claim_C10 "div" [("children", Prim.str "haha")] [Child.primC (Prim.str "kid")]
    (Prim.str "haha") (by simp)

/-- The inner loop of `workLoop` never emits a re-arm event. -/
theorem rearm_not_in_workLoopGo (d : List Int) (s : MState) :
    Event.rearm ∉ (workLoopGo d s).2 := by
  induction d generalizing s with
  | nil => cases h : s.nextUnitOfWork <;> simp [workLoopGo, h]
  | cons r rest ih =>
    cases h : s.nextUnitOfWork with
    | none => simp [workLoopGo, h]
    | some i =>
      by_cases hr : r < 1 <;> simp [workLoopGo, h, hr]
      exact ih _

/-- C6: whenever a pending fiber exists, an invocation of the work loop
processes at least one fiber — the pending one — before yielding, for
every time budget, including one that reads 0 from the start
(`shouldYield` starts false and the deadline is only consulted after a
unit has been processed). -/
theorem claim_C6 (d : List Int) (s : MState) (i : Nat)
    (h : s.nextUnitOfWork = some i) :
    (workLoop d s).2.head? = some (Event.unit i) ∧
    1 ≤ (unitsOf (workLoop d s).2).length := by
  have hgo : ∃ tl, (workLoop d s).2 = Event.unit i :: tl := by
    cases d with
    | nil => exact ⟨[Event.rearm], by simp [workLoop, workLoopGo, h]⟩
    | cons r rest =>
      by_cases hr : r < 1
      · exact ⟨[Event.rearm], by simp [workLoop, workLoopGo, h, hr]⟩
      · refine ⟨(workLoopGo rest (performUnitOfWork s i)).2 ++ [Event.rearm], ?_⟩
        simp [workLoop, workLoopGo, h, hr]
  obtain ⟨tl, htl⟩ := hgo
  simp [htl, unitsOf]

theorem claim_C6_witness :
    ((mount exampleTree initState).nextUnitOfWork = some 0) ∧
    (workLoop [] (mount exampleTree initState)).2.head?
      = some (Event.unit 0) ∧
    1 ≤ (unitsOf (workLoop [] (mount exampleTree initState)).2).length :=
  ⟨rfl, claim_C6 [] (mount exampleTree initState) 0 rfl⟩

/-- C8: on every return of the work loop — work processed, budget
exhausted, or nothing pending — the idle notification is re-armed exactly
once, as the loop's final action. -/
theorem claim_C8 (d : List Int) (s : MState) :
    (workLoop d s).2.count Event.rearm = 1 ∧
    (workLoop d s).2.getLast? = some Event.rearm := by
  constructor
  · have h0 : (workLoopGo d s).2.count Event.rearm = 0 :=
      List.count_eq_zero.mpr (rearm_not_in_workLoopGo d s)
    simp [workLoop, List.count_append, h0]
  · simp [workLoop]

/-- C7: if processing the pending fiber raises a host failure during a
work-loop invocation, the invocation returns that failure unmodified, no
re-arm happens (the exception unwinds past `requestIdleCallback`), and
the cursor still holds the fiber it held when the failure occurred —
nothing is rolled back or cleared, so the scheduler never resumes. -/
theorem claim_C7 (ok : String → Prim → Bool) (d : List Int) (s : MState)
    (i : Nat) (v : String × Prim) (se : MState)
    (hcur : s.nextUnitOfWork = some i)
    (hfail : performUnitOfWorkE ok s i = .error (v, se)) :
    workLoopE ok d s = .error (v, se, []) ∧
    se.nextUnitOfWork = some i ∧
    se.fibers = s.fibers := by
  have hse : se.nextUnitOfWork = s.nextUnitOfWork ∧ se.fibers = s.fibers := by
    unfold performUnitOfWorkE at hfail
    split at hfail
    · exact absurd hfail (by simp)
    · split at hfail
      · exact absurd hfail (by simp)
      · split at hfail
        · exact absurd hfail (by simp)
        · simp only [Except.error.injEq, Prod.mk.injEq] at hfail
          obtain ⟨-, hs⟩ := hfail
          subst hs
          exact ⟨rfl, rfl⟩
  refine ⟨?_, hse.1.trans hcur, hse.2⟩
  cases d with
  | nil => simp [workLoopE, workLoopGoE, hcur, hfail]
  | cons r rest => simp [workLoopE, workLoopGoE, hcur, hfail]

theorem claim_C7_witness :
    c7state.nextUnitOfWork = some 1 ∧
    performUnitOfWorkE c7ok c7state 1 =
      .error (("style", Prim.str "background: salmon"), c7errState) ∧
    workLoopE c7ok [] c7state =
      .error (("style", Prim.str "background: salmon"), c7errState, []) ∧
    c7errState.nextUnitOfWork = some 1 ∧
    c7errState.fibers = c7state.fibers :=
  ⟨rfl, rfl,
   (claim_C7 c7ok [] c7state 1 _ c7errState rfl rfl).1,
   (claim_C7 c7ok [] c7state 1 _ c7errState rfl rfl).2.1,
   (claim_C7 c7ok [] c7state 1 _ c7errState rfl rfl).2.2⟩

/-! ## Infrastructure for the full-mount theorem (C2) -/

theorem getElem?_some_lt {α : Type} {l : List α} {i : Nat} {a : α}
    (h : l[i]? = some a) : i < l.length := by
  by_contra hc
  rw [List.getElem?_eq_none (by omega)] at h
  exact absurd h (by simp)

theorem elemCount_pos (e : Element) : 1 ≤ elemCount e := by
  cases e with | mk t p cs => simp [elemCount]

/-- Mutual induction over elements and children sequences. -/
theorem elem_mutual_ind (P : Element → Prop) (Q : List Child → Prop)
    (hmk : ∀ t p cs, Q cs → P (.mk t p cs))
    (hnil : Q [])
    (hcons : ∀ c r, P c → Q r → Q (.elemC c :: r))
    (hnull : ∀ r, Q r → Q (.nullC :: r))
    (hprim : ∀ q r, Q r → Q (.primC q :: r)) :
    (∀ e, P e) ∧ (∀ cs, Q cs) := by
  have key : ∀ n, (∀ e, elemCount e ≤ n → P e) ∧
      (∀ cs, childCount cs ≤ n → Q cs) := by
    intro n
    induction n with
    | zero =>
      constructor
      · intro e h
        exact absurd h (by have := elemCount_pos e; omega)
      · intro cs h
        induction cs with
        | nil => exact hnil
        | cons c r ihr =>
          cases c with
          | elemC c' =>
            exfalso
            have := elemCount_pos c'
            simp [childCount] at h
            omega
          | nullC => exact hnull r (ihr (by simpa [childCount] using h))
          | primC q => exact hprim q r (ihr (by simpa [childCount] using h))
    | succ n ih =>
      have hP : ∀ e, elemCount e ≤ n + 1 → P e := by
        intro e h
        cases e with
        | mk t p cs =>
          refine hmk t p cs (ih.2 cs ?_)
          simp [elemCount] at h
          omega
      refine ⟨hP, ?_⟩
      intro cs h
      induction cs with
      | nil => exact hnil
      | cons c r ihr =>
        cases c with
        | elemC c' =>
          have hc : elemCount c' + childCount r ≤ n + 1 := by
            simpa [childCount] using h
          exact hcons c' r (hP c' (by omega)) (ihr (by omega))
        | nullC => exact hnull r (ihr (by simpa [childCount] using h))
        | primC q => exact hprim q r (ihr (by simpa [childCount] using h))
  exact ⟨fun e => (key (elemCount e)).1 e le_rfl,
         fun cs => (key (childCount cs)).2 cs le_rfl⟩

/-! ### State and step lemmas -/

@[simp] theorem setCursor_fibers (s : MState) (c : Option Nat) :
    (setCursor s c).fibers = s.fibers := rfl

@[simp] theorem setCursor_nodes (s : MState) (c : Option Nat) :
    (setCursor s c).nodes = s.nodes := rfl

@[simp] theorem setCursor_cursor (s : MState) (c : Option Nat) :
    (setCursor s c).nextUnitOfWork = c := rfl

@[simp] theorem setCursor_setCursor (s : MState) (c c' : Option Nat) :
    setCursor (setCursor s c) c' = setCursor s c' := rfl

theorem setCursor_eq_self {s : MState} {c : Option Nat}
    (h : s.nextUnitOfWork = c) : setCursor s c = s := by
  cases s
  subst h
  rfl

@[simp] theorem doUnit_cursor (s : MState) (i : Nat) :
    (doUnit s i).nextUnitOfWork = s.nextUnitOfWork := rfl

theorem doUnit_setCursor (s : MState) (c : Option Nat) (i : Nat) :
    doUnit (setCursor s c) i = setCursor (doUnit s i) c := rfl

theorem step_of_none {s : MState} (h : s.nextUnitOfWork = none) :
    step s = s := by
  simp [step, h]

theorem step_of_some {s : MState} {i : Nat} (h : s.nextUnitOfWork = some i) :
    step s = performUnitOfWork s i := by
  simp [step, h]

theorem steps_succ (n : Nat) (s : MState) :
    steps (n + 1) s = steps n (step s) := rfl

theorem steps_add (a b : Nat) (s : MState) :
    steps (a + b) s = steps b (steps a s) := by
  induction a generalizing s with
  | zero => rw [Nat.zero_add]; rfl
  | succ n ih =>
    have h : n + 1 + b = n + b + 1 := by omega
    rw [h, steps_succ, steps_succ, ih]

theorem steps_of_none {s : MState} (h : s.nextUnitOfWork = none) (n : Nat) :
    steps n s = s := by
  induction n with
  | zero => rfl
  | succ n ih =>
    rw [steps_succ, step_of_none h]
    exact ih

theorem steps_absorb {s : MState} {n : Nat}
    (h : (steps n s).nextUnitOfWork = none) {m : Nat} (hm : n ≤ m) :
    steps m s = steps n s := by
  have he : m = n + (m - n) := by omega
  rw [he, steps_add]
  exact steps_of_none h _

/-! ### Characterization of processing one unit -/

theorem makeChildFibers_length (iP : Nat) :
    ∀ (ks : List Element) (start : Nat),
      (makeChildFibers iP start ks).length = ks.length := by
  intro ks
  induction ks with
  | nil => intro start; rfl
  | cons e rest ih => intro start; simp [makeChildFibers, ih]

theorem unitFibers_eq (fb : List Fiber) (nl i : Nat) (f : Fiber)
    (hf : fb[i]? = some f) :
    unitFibers fb nl i =
      fb.set i
        { element := f.element, parent := f.parent
          child := if (elemsOf f.element.children).isEmpty then f.child
                   else some fb.length
          sibling := f.sibling
          hostNode := if f.parent.isSome then some nl else f.hostNode } ++
      makeChildFibers i fb.length (elemsOf f.element.children) := by
  simp only [unitFibers, hf]
  by_cases hp : f.parent.isSome <;>
    by_cases hk : (elemsOf f.element.children).isEmpty <;>
      simp [hp, hk]

theorem doUnit_fibers {s : MState} {i : Nat} {f : Fiber}
    (hf : s.fibers[i]? = some f) :
    (doUnit s i).fibers =
      s.fibers.set i
        { element := f.element, parent := f.parent
          child := if (elemsOf f.element.children).isEmpty then f.child
                   else some s.fibers.length
          sibling := f.sibling
          hostNode := if f.parent.isSome then some s.nodes.length
                      else f.hostNode } ++
      makeChildFibers i s.fibers.length (elemsOf f.element.children) :=
  unitFibers_eq s.fibers s.nodes.length i f hf

theorem doUnit_fibers_length {s : MState} {i : Nat} {f : Fiber}
    (hf : s.fibers[i]? = some f) :
    (doUnit s i).fibers.length =
      s.fibers.length + (elemsOf f.element.children).length := by
  rw [doUnit_fibers hf]
  simp [makeChildFibers_length]

theorem doUnit_fibers_frame {s : MState} {i : Nat} {f : Fiber}
    (hf : s.fibers[i]? = some f) {m : Nat} (hm : m < s.fibers.length)
    (hne : m ≠ i) :
    (doUnit s i).fibers[m]? = s.fibers[m]? := by
  rw [doUnit_fibers hf, List.getElem?_append_left (by simpa using hm),
    List.getElem?_set_ne (Ne.symm hne)]

theorem doUnit_fibers_self {s : MState} {i : Nat} {f : Fiber}
    (hf : s.fibers[i]? = some f) :
    (doUnit s i).fibers[i]? = some
      { element := f.element, parent := f.parent
        child := if (elemsOf f.element.children).isEmpty then f.child
                 else some s.fibers.length
        sibling := f.sibling
        hostNode := if f.parent.isSome then some s.nodes.length
                    else f.hostNode } := by
  have hi : i < s.fibers.length := getElem?_some_lt hf
  rw [doUnit_fibers hf, List.getElem?_append_left (by simpa using hi),
    List.getElem?_set_self (by simpa using hi)]

theorem drop_append_of_length {α : Type} {l : List α} {k : Nat}
    (h : l.length = k) (m : List α) : (l ++ m).drop k = m := by
  subst h
  exact List.drop_left l m

theorem doUnit_fibers_drop {s : MState} {i : Nat} {f : Fiber}
    (hf : s.fibers[i]? = some f) :
    (doUnit s i).fibers.drop s.fibers.length =
      makeChildFibers i s.fibers.length (elemsOf f.element.children) := by
  rw [doUnit_fibers hf]
  exact drop_append_of_length (by simp) _

theorem doUnit_nodes_root {s : MState} {i : Nat} {f : Fiber}
    (hf : s.fibers[i]? = some f) (hroot : f.parent = none) :
    (doUnit s i).nodes = s.nodes := by
  show unitNodes s.fibers s.nodes i = s.nodes
  simp [unitNodes, hf, hroot]

theorem doUnit_nodes_parent {s : MState} {i p : Nat} {f : Fiber}
    (hf : s.fibers[i]? = some f) (hp : f.parent = some p) :
    (doUnit s i).nodes =
      appendChildAt (s.nodes ++ [createDom f.element])
        (resolvedHost s.fibers p) s.nodes.length := by
  show unitNodes s.fibers s.nodes i = _
  simp [unitNodes, hf, hp]

theorem perform_eq {s : MState} {i : Nat} {f : Fiber}
    (hf : s.fibers[i]? = some f) :
    performUnitOfWork s i =
      setCursor (doUnit s i)
        (if (elemsOf f.element.children).isEmpty
         then ascend (doUnit s i).fibers i
         else some s.fibers.length) := by
  simp only [performUnitOfWork, hf, setCursor]

/-! ### `appendChildAt` lemmas -/

theorem appendChildAt_length (ns : List DomNode) (p c : Nat) :
    (appendChildAt ns p c).length = ns.length := by
  unfold appendChildAt
  split <;> simp

theorem appendChildAt_get_ne (ns : List DomNode) (p c : Nat) {m : Nat}
    (hne : m ≠ p) :
    (appendChildAt ns p c)[m]? = ns[m]? := by
  unfold appendChildAt
  split
  · exact List.getElem?_set_ne (Ne.symm hne)
  · rfl

theorem appendChildAt_get_self {ns : List DomNode} {p : Nat} {n : DomNode}
    (hn : ns[p]? = some n) (c : Nat) :
    (appendChildAt ns p c)[p]? =
      some { n with childNodes := n.childNodes ++ [c] } := by
  have hp : p < ns.length := getElem?_some_lt hn
  unfold appendChildAt
  rw [hn]
  exact List.getElem?_set_self (by simpa using hp)

/-! ### Chain lemmas -/

theorem wf_of_wfChildren_cons {c : Element} {r : List Child}
    (h : wfChildren (.elemC c :: r) = true) :
    wfElem c = true ∧ wfChildren r = true := by
  simpa [wfChildren, Bool.and_eq_true] using h

theorem elemsOf_cons_elem (c : Element) (r : List Child) :
    elemsOf (.elemC c :: r) = c :: elemsOf r := rfl

theorem elemsOf_isEmpty_of_wf {cs : List Child}
    (h : wfChildren cs = true) : (elemsOf cs).isEmpty = cs.isEmpty := by
  cases cs with
  | nil => rfl
  | cons c r =>
    cases c with
    | elemC c' => rfl
    | nullC => simp [wfChildren] at h
    | primC q => simp [wfChildren] at h

theorem elemsOf_length_of_wf {cs : List Child} (h : wfChildren cs = true) :
    (elemsOf cs).length = cs.length := by
  induction cs with
  | nil => rfl
  | cons c r ih =>
    cases c with
    | elemC c' =>
      obtain ⟨-, hr⟩ := wf_of_wfChildren_cons h
      simp [elemsOf_cons_elem, ih hr]
    | nullC => simp [wfChildren] at h
    | primC q => simp [wfChildren] at h

theorem chainAt_drop :
    ∀ (cs : List Child) (j iP : Nat) (fb : List Fiber),
      wfChildren cs = true →
      fb.drop j = makeChildFibers iP j (elemsOf cs) →
      ChainAt fb j cs iP := by
  intro cs
  induction cs with
  | nil =>
    intro j iP fb h hd
    simp [ChainAt]
  | cons c r ih =>
    intro j iP fb hwf hd
    cases c with
    | elemC c' =>
      obtain ⟨hwfc, hwfr⟩ := wf_of_wfChildren_cons hwf
      rw [elemsOf_cons_elem, makeChildFibers] at hd
      simp only [ChainAt]
      constructor
      · have h0 := List.getElem?_drop fb j 0
        rw [hd] at h0
        simp only [List.getElem?_cons_zero, Nat.add_zero] at h0
        rw [← h0, elemsOf_isEmpty_of_wf hwfr]
      · refine ih (j + 1) iP fb hwfr ?_
        have h1 : fb.drop (j + 1) = (fb.drop j).drop 1 := by
          rw [List.drop_drop]
        rw [h1, hd]
        rfl
    | nullC => simp [wfChildren] at hwf
    | primC q => simp [wfChildren] at hwf

theorem chainAt_mono :
    ∀ (cs : List Child) (j iP : Nat) (fb fb' : List Fiber),
      ChainAt fb j cs iP →
      (∀ m (rec : Fiber), j ≤ m → fb[m]? = some rec → fb'[m]? = some rec) →
      ChainAt fb' j cs iP := by
  intro cs
  induction cs with
  | nil => intro j iP fb fb' h hp; simp [ChainAt]
  | cons c r ih =>
    intro j iP fb fb' h hp
    cases c with
    | elemC c' =>
      simp only [ChainAt] at h ⊢
      exact ⟨hp j _ le_rfl h.1,
        ih (j + 1) iP fb fb' h.2 fun m rec hm hsome => hp m rec (by omega) hsome⟩
    | nullC => simp [ChainAt] at h
    | primC q => simp [ChainAt] at h

/-! ### Frame properties of the reference run

`processT e s i` only writes fiber `i` (its `child` and `hostNode`) and
fibers allocated at indices at least `s.fibers.length`. -/

theorem frames_all :
    (∀ (e : Element), ∀ (s : MState) (i : Nat) (f : Fiber),
      wfElem e = true → s.fibers[i]? = some f → f.element = e →
      s.fibers.length ≤ (processT e s i).fibers.length ∧
      (∀ m, m < s.fibers.length → m ≠ i →
        (processT e s i).fibers[m]? = s.fibers[m]?) ∧
      (∃ ch hn, (processT e s i).fibers[i]? = some
        { element := f.element, parent := f.parent, child := ch
          sibling := f.sibling, hostNode := hn })) ∧
    (∀ (cs : List Child), ∀ (s : MState) (j iP : Nat),
      wfChildren cs = true → ChainAt s.fibers j cs iP →
      s.fibers.length ≤ (processL cs s j).fibers.length ∧
      (∀ m, m < j → (processL cs s j).fibers[m]? = s.fibers[m]?)) := by
  refine elem_mutual_ind _ _ ?_ ?_ ?_ ?_ ?_
  · -- element case
    intro t p cs hQ s i f hwf hf hel
    have hwfcs : wfChildren cs = true := by
      simpa [wfElem] using hwf
    have hchil : f.element.children = cs := by rw [hel]; rfl
    have hchain : ChainAt (doUnit s i).fibers s.fibers.length cs i := by
      apply chainAt_drop cs s.fibers.length i _ hwfcs
      rw [← hchil]
      exact doUnit_fibers_drop hf
    have hQ1 := hQ (doUnit s i) s.fibers.length i hwfcs hchain
    have hi : i < s.fibers.length := getElem?_some_lt hf
    have hdl : s.fibers.length ≤ (doUnit s i).fibers.length := by
      rw [doUnit_fibers_length hf]
      omega
    refine ⟨?_, ?_, ?_⟩
    · show s.fibers.length ≤
        (processL cs (doUnit s i) s.fibers.length).fibers.length
      exact le_trans hdl hQ1.1
    · intro m hm hne
      show (processL cs (doUnit s i) s.fibers.length).fibers[m]? = _
      rw [hQ1.2 m hm, doUnit_fibers_frame hf hm hne]
    · refine ⟨if (elemsOf f.element.children).isEmpty then f.child
          else some s.fibers.length,
        if f.parent.isSome then some s.nodes.length else f.hostNode, ?_⟩
      show (processL cs (doUnit s i) s.fibers.length).fibers[i]? = _
      rw [hQ1.2 i hi, doUnit_fibers_self hf]
  · -- nil case
    intro s j iP hwf hchain
    exact ⟨le_rfl, fun m hm => rfl⟩
  · -- elemC cons case
    intro c r hP hQ s j iP hwf hchain
    obtain ⟨hwfc, hwfr⟩ := wf_of_wfChildren_cons hwf
    simp only [ChainAt] at hchain
    obtain ⟨hc1, hc2⟩ := hchain
    have hj : j < s.fibers.length := getElem?_some_lt hc1
    have hP1 := hP s j _ hwfc hc1 rfl
    have hchain2 : ChainAt (processT c s j).fibers (j + 1) r iP := by
      refine chainAt_mono r (j + 1) iP s.fibers _ hc2 ?_
      intro m rec hm hsome
      rw [hP1.2.1 m (getElem?_some_lt hsome) (by omega)]
      exact hsome
    have hQ1 := hQ (processT c s j) (j + 1) iP hwfr hchain2
    constructor
    · show s.fibers.length ≤
        (processL r (processT c s j) (j + 1)).fibers.length
      exact le_trans hP1.1 hQ1.1
    · intro m hm
      show (processL r (processT c s j) (j + 1)).fibers[m]? = _
      rw [hQ1.2 m (by omega), hP1.2.1 m (by omega) (by omega)]
  · -- nullC case (well-formedness rules it out)
    intro r hQ s j iP hwf hchain
    simp [ChainAt] at hchain
  · -- primC case
    intro q r hQ s j iP hwf hchain
    simp [ChainAt] at hchain

/-! ### The reference run neither reads nor keeps the cursor -/

theorem cursor_all :
    (∀ (e : Element), ∀ (s : MState) (i : Nat),
      (processT e s i).nextUnitOfWork = s.nextUnitOfWork ∧
      ∀ c, processT e (setCursor s c) i = setCursor (processT e s i) c) ∧
    (∀ (cs : List Child), ∀ (s : MState) (j : Nat),
      (processL cs s j).nextUnitOfWork = s.nextUnitOfWork ∧
      ∀ c, processL cs (setCursor s c) j = setCursor (processL cs s j) c) := by
  refine elem_mutual_ind _ _ ?_ ?_ ?_ ?_ ?_
  · intro t p cs hQ s i
    constructor
    · show (processL cs (doUnit s i) s.fibers.length).nextUnitOfWork = _
      rw [(hQ (doUnit s i) s.fibers.length).1, doUnit_cursor]
    · intro c
      show processL cs (doUnit (setCursor s c) i)
          (setCursor s c).fibers.length = _
      rw [doUnit_setCursor]
      exact (hQ (doUnit s i) s.fibers.length).2 c
  · intro s j
    exact ⟨rfl, fun c => rfl⟩
  · intro c r hP hQ s j
    constructor
    · show (processL r (processT c s j) (j + 1)).nextUnitOfWork = _
      rw [(hQ (processT c s j) (j + 1)).1, (hP s j).1]
    · intro cc
      show processL r (processT c (setCursor s cc) j) (j + 1) = _
      rw [(hP s j).2 cc]
      exact (hQ (processT c s j) (j + 1)).2 cc
  · intro r hQ s j
    exact hQ s j
  · intro q r hQ s j
    exact hQ s j

theorem resolvedHost_congr {fb fb' : List Fiber} {iP : Nat}
    (h : fb'[iP]? = fb[iP]?) : resolvedHost fb' iP = resolvedHost fb iP := by
  simp [resolvedHost, h]

/-! ### Simulation: the step machine against the reference run

Processing the subtree rooted at the pending fiber `i` takes exactly
`elemCount e` iterations of the `while` loop, produces the state
`processT e s i`, and leaves the cursor at the sibling-or-uncle of `i`. -/

theorem simulation_all :
    (∀ (e : Element), ∀ (s : MState) (i : Nat) (f : Fiber),
      wfElem e = true → s.fibers[i]? = some f → f.element = e →
      s.nextUnitOfWork = some i →
      steps (elemCount e) s =
        setCursor (processT e s i) (ascend (processT e s i).fibers i)) ∧
    (∀ (cs : List Child), ∀ (s : MState) (j iP : Nat),
      wfChildren cs = true → ChainAt s.fibers j cs iP → iP < j →
      s.nextUnitOfWork =
        (if cs.isEmpty then ascend s.fibers iP else some j) →
      steps (childCount cs) s =
        setCursor (processL cs s j) (ascend (processL cs s j).fibers iP)) := by
  refine elem_mutual_ind _ _ ?_ ?_ ?_ ?_ ?_
  · -- element: one unit for the fiber itself, then its children chain
    intro t p cs hQ s i f hwf hf hel hcur
    have hwfcs : wfChildren cs = true := by simpa [wfElem] using hwf
    have hchil : f.element.children = cs := by rw [hel]; rfl
    have hi : i < s.fibers.length := getElem?_some_lt hf
    rw [show elemCount (.mk t p cs) = childCount cs + 1 from
        by simp [elemCount, Nat.add_comm],
      steps_succ, step_of_some hcur, perform_eq hf, hchil,
      elemsOf_isEmpty_of_wf hwfcs]
    cases cs with
    | nil => rfl
    | cons c0 r0 =>
      have hchain : ChainAt
          (setCursor (doUnit s i) (some s.fibers.length)).fibers
          s.fibers.length (c0 :: r0) i := by
        rw [setCursor_fibers]
        apply chainAt_drop _ _ _ _ hwfcs
        rw [← hchil]
        exact doUnit_fibers_drop hf
      have hB := hQ (setCursor (doUnit s i) (some s.fibers.length))
        s.fibers.length i hwfcs hchain hi (by simp)
      simp only [List.isEmpty_cons, if_neg (by simp : ¬(false = true))] at hB ⊢
      rw [hB, (cursor_all.2 (c0 :: r0) (doUnit s i) s.fibers.length).2
        (some s.fibers.length)]
      simp only [setCursor_fibers, setCursor_setCursor]
      rfl
  · -- empty chain: nothing to do, the cursor already points past it
    intro s j iP hwf hchain hiP hcur
    simp only [List.isEmpty_nil, if_pos rfl] at hcur
    show s = setCursor (processL [] s j) (ascend (processL [] s j).fibers iP)
    exact (setCursor_eq_self hcur).symm
  · -- chain headed by an element: recurse into its subtree, then the rest
    intro c r hP hQ s j iP hwf hchain hiP hcur
    obtain ⟨hwfc, hwfr⟩ := wf_of_wfChildren_cons hwf
    simp only [ChainAt] at hchain
    obtain ⟨hc1, hc2⟩ := hchain
    have hj : j < s.fibers.length := getElem?_some_lt hc1
    simp only [List.isEmpty_cons, if_neg (by simp : ¬(false = true))] at hcur
    rw [show childCount (.elemC c :: r) = elemCount c + childCount r from
        by simp [childCount],
      steps_add]
    have hA := hP s j _ hwfc hc1 rfl hcur
    rw [hA]
    have hF := frames_all.1 c s j _ hwfc hc1 rfl
    have hframe := hF.2.1
    obtain ⟨ch, hn, hself⟩ := hF.2.2
    have hnext : ascend (processT c s j).fibers j =
        (if r.isEmpty then ascend (processT c s j).fibers iP
         else some (j + 1)) := by
      rw [ascend_eq, hself]
      cases hre : r.isEmpty <;> simp [hre, hiP]
    have hchain2 : ChainAt
        (setCursor (processT c s j) (ascend (processT c s j).fibers j)).fibers
        (j + 1) r iP := by
      rw [setCursor_fibers]
      refine chainAt_mono r (j + 1) iP s.fibers _ hc2 ?_
      intro m rec hm hsome
      rw [hframe m (getElem?_some_lt hsome) (by omega)]
      exact hsome
    have hB := hQ (setCursor (processT c s j) (ascend (processT c s j).fibers j))
      (j + 1) iP hwfr hchain2 (by omega) (by rw [setCursor_cursor, hnext]; simp)
    rw [hB, (cursor_all.2 r (processT c s j) (j + 1)).2
      (ascend (processT c s j).fibers j)]
    simp only [setCursor_fibers, setCursor_setCursor]
    rfl
  · intro r hQ s j iP hwf hchain hiP hcur
    simp [ChainAt] at hchain
  · intro q r hQ s j iP hwf hchain hiP hcur
    simp [ChainAt] at hchain

/-! ### Decoding lemmas -/

theorem decodeList_nil (ns : List DomNode) (fuel : Nat) :
    decodeList ns fuel [] = some [] := by
  cases fuel <;> rfl

theorem decodeList_cons_inv {ns : List DomNode} {fuel j : Nat}
    {js : List Nat} {ts : List HostTree}
    (h : decodeList ns fuel (j :: js) = some ts) :
    ∃ fuel0 n kids rest, fuel = fuel0 + 1 ∧ ns[j]? = some n ∧
      decodeList ns fuel0 n.childNodes = some kids ∧
      decodeList ns fuel0 js = some rest ∧
      ts = .node n.tag n.props kids :: rest := by
  cases fuel with
  | zero => simp [decodeList] at h
  | succ fuel0 =>
    simp only [decodeList] at h
    split at h
    next => exact absurd h (by simp)
    next n hn =>
      split at h
      next kids rest hk hr =>
        simp only [Option.some.injEq] at h
        exact ⟨fuel0, n, kids, rest, rfl, hn, hk, hr, h.symm⟩
      next => exact absurd h (by simp)

theorem decodeList_cons {ns : List DomNode} {fuel j : Nat} {n : DomNode}
    {js : List Nat} {kids rest : List HostTree}
    (hn : ns[j]? = some n) (hk : decodeList ns fuel n.childNodes = some kids)
    (hr : decodeList ns fuel js = some rest) :
    decodeList ns (fuel + 1) (j :: js) =
      some (.node n.tag n.props kids :: rest) := by
  simp [decodeList, hn, hk, hr]

theorem decodeList_mono {ns : List DomNode} :
    ∀ (fuel : Nat) {js : List Nat} {ts : List HostTree},
      decodeList ns fuel js = some ts →
      ∀ {fuel' : Nat}, fuel ≤ fuel' → decodeList ns fuel' js = some ts := by
  intro fuel
  induction fuel with
  | zero =>
    intro js ts h fuel' hle
    cases js with
    | nil => rw [decodeList_nil] at h ⊢; exact h
    | cons j js => simp [decodeList] at h
  | succ f ih =>
    intro js ts h fuel' hle
    cases js with
    | nil => rw [decodeList_nil] at h ⊢; exact h
    | cons j js =>
      obtain ⟨f0, n, kids, rest, hf0, hn, hk, hr, hts⟩ := decodeList_cons_inv h
      have hff : f0 = f := by omega
      subst hff
      cases fuel' with
      | zero => omega
      | succ f' =>
        subst hts
        exact decodeList_cons hn (ih hk (by omega)) (ih hr (by omega))

/-- Decoding only reads arena entries at indices at least the smallest
root (children indices strictly increase along `Forward` arenas), so it
survives any modification confined to smaller indices and any growth. -/
theorem decodeList_stable {ns ns' : List DomNode} (hfwd : Forward ns) :
    ∀ (fuel r : Nat) (js : List Nat) (ts : List HostTree),
      (∀ j ∈ js, r ≤ j) →
      decodeList ns fuel js = some ts →
      (∀ m (n : DomNode), r ≤ m → ns[m]? = some n → ns'[m]? = some n) →
      decodeList ns' fuel js = some ts := by
  intro fuel
  induction fuel with
  | zero =>
    intro r js ts hjs h hag
    cases js with
    | nil => rw [decodeList_nil] at h ⊢; exact h
    | cons j js => simp [decodeList] at h
  | succ f ih =>
    intro r js ts hjs h hag
    cases js with
    | nil => rw [decodeList_nil] at h ⊢; exact h
    | cons j js =>
      obtain ⟨f0, n, kids, rest, hf0, hn, hk, hr, hts⟩ := decodeList_cons_inv h
      have hff : f0 = f := by omega
      subst hff
      have hj : r ≤ j := hjs j (List.mem_cons_self j js)
      have hkids : ∀ x ∈ n.childNodes, r ≤ x := by
        intro x hx
        exact le_of_lt (lt_of_le_of_lt hj (hfwd j n hn x hx))
      subst hts
      exact decodeList_cons (hag j n hj hn)
        (ih r n.childNodes kids hkids hk hag)
        (ih r js rest (fun x hx => hjs x (List.mem_cons_of_mem j hx)) hr hag)

/-! ### `Forward` preservation -/

theorem forward_append_new {ns : List DomNode} (hf : Forward ns)
    {d : DomNode} (hd : d.childNodes = []) : Forward (ns ++ [d]) := by
  intro m n hm j hj
  by_cases h : m < ns.length
  · rw [List.getElem?_append_left h] at hm
    exact hf m n hm j hj
  · rw [List.getElem?_append_right (by omega)] at hm
    cases hk : m - ns.length with
    | zero =>
      rw [hk] at hm
      simp only [List.getElem?_cons_zero, Option.some.injEq] at hm
      subst hm
      rw [hd] at hj
      exact absurd hj (List.not_mem_nil j)
    | succ k =>
      rw [hk] at hm
      simp at hm

theorem forward_appendChildAt {ns : List DomNode} (hf : Forward ns)
    {p c : Nat} (hpc : p < c) : Forward (appendChildAt ns p c) := by
  unfold appendChildAt
  split
  case _ n0 hn0 =>
    intro m n hm j hj
    by_cases hmp : m = p
    · subst hmp
      rw [List.getElem?_set_self (by simpa using getElem?_some_lt hn0)] at hm
      simp only [Option.some.injEq] at hm
      subst hm
      simp only [List.mem_append, List.mem_singleton] at hj
      cases hj with
      | inl hj0 => exact hf m n0 hn0 j hj0
      | inr hjc => omega
    · rw [List.getElem?_set_ne (Ne.symm hmp)] at hm
      exact hf m n hm j hj
  case _ => exact hf

@[simp] theorem createDom_childNodes (e : Element) :
    (createDom e).childNodes = [] := rfl

theorem hostTreeOf_mk (t : String) (pr : List (String × Prim))
    (cs : List Child) :
    hostTreeOf (.mk t pr cs) =
      .node (createDom (Element.mk t pr cs)).tag
        (createDom (Element.mk t pr cs)).props (hostTreesOf cs) := rfl

/-! ### Host-tree correctness of the reference run

Mounting the subtree of a non-root fiber appends exactly one node under
the parent fiber's host node and builds, block-contiguously above it, a
host forest decoding to `hostTreeOf`; a sibling chain does so once per
element child, in order. -/

theorem nodes_all :
    (∀ (e : Element), ∀ (s : MState) (i pIdx : Nat) (f : Fiber)
        (hpn : DomNode),
      wfElem e = true → s.fibers[i]? = some f → f.element = e →
      f.parent = some pIdx → pIdx < i → Forward s.nodes →
      s.nodes[resolvedHost s.fibers pIdx]? = some hpn →
      ((processT e s i).nodes.length = s.nodes.length + elemCount e) ∧
      (∀ m, m < s.nodes.length → m ≠ resolvedHost s.fibers pIdx →
        (processT e s i).nodes[m]? = s.nodes[m]?) ∧
      ((processT e s i).nodes[resolvedHost s.fibers pIdx]? = some
        { hpn with childNodes := hpn.childNodes ++ [s.nodes.length] }) ∧
      (decodeList (processT e s i).nodes (elemCount e) [s.nodes.length] =
        some [hostTreeOf e]) ∧
      Forward (processT e s i).nodes) ∧
    (∀ (cs : List Child), ∀ (s : MState) (j iP : Nat) (hqn : DomNode),
      wfChildren cs = true → ChainAt s.fibers j cs iP → iP < j →
      Forward s.nodes →
      s.nodes[resolvedHost s.fibers iP]? = some hqn →
      ((processL cs s j).nodes.length = s.nodes.length + childCount cs) ∧
      (∀ m, m < s.nodes.length → m ≠ resolvedHost s.fibers iP →
        (processL cs s j).nodes[m]? = s.nodes[m]?) ∧
      ((processL cs s j).nodes[resolvedHost s.fibers iP]? = some
        { hqn with
          childNodes := hqn.childNodes ++ rootIdxs cs s.nodes.length }) ∧
      (decodeList (processL cs s j).nodes (childCount cs)
        (rootIdxs cs s.nodes.length) = some (hostTreesOf cs)) ∧
      Forward (processL cs s j).nodes) := by
  refine elem_mutual_ind _ _ ?_ ?_ ?_ ?_ ?_
  · -- a non-root element: materialize, then mount the children chain
    intro t pr cs hQ s i pIdx f hpn hwf hf hel hpar hpi hfwd hhp
    have hwfcs : wfChildren cs = true := by simpa [wfElem] using hwf
    have hchil : f.element.children = cs := by rw [hel]; rfl
    have hi : i < s.fibers.length := getElem?_some_lt hf
    have hplt : resolvedHost s.fibers pIdx < s.nodes.length :=
      getElem?_some_lt hhp
    have hn1 : (doUnit s i).nodes =
        appendChildAt (s.nodes ++ [createDom f.element])
          (resolvedHost s.fibers pIdx) s.nodes.length :=
      doUnit_nodes_parent hf hpar
    have hlen1 : (doUnit s i).nodes.length = s.nodes.length + 1 := by
      rw [hn1, appendChildAt_length]
      simp
    have hfr1 : ∀ m, m < s.nodes.length → m ≠ resolvedHost s.fibers pIdx →
        (doUnit s i).nodes[m]? = s.nodes[m]? := by
      intro m hm hne
      rw [hn1, appendChildAt_get_ne _ _ _ hne, List.getElem?_append_left hm]
    have hhp1 : (doUnit s i).nodes[resolvedHost s.fibers pIdx]? =
        some { hpn with childNodes := hpn.childNodes ++ [s.nodes.length] } := by
      rw [hn1]
      exact appendChildAt_get_self
        (by rw [List.getElem?_append_left hplt]; exact hhp) _
    have hnb : (doUnit s i).nodes[s.nodes.length]? =
        some (createDom f.element) := by
      rw [hn1, appendChildAt_get_ne _ _ _ (by omega),
        List.getElem?_append_right (le_refl _)]
      simp
    have hfwd1 : Forward (doUnit s i).nodes := by
      rw [hn1]
      exact forward_appendChildAt (forward_append_new hfwd rfl) hplt
    have hchain : ChainAt (doUnit s i).fibers s.fibers.length cs i := by
      apply chainAt_drop _ _ _ _ hwfcs
      rw [← hchil]
      exact doUnit_fibers_drop hf
    have hres : resolvedHost (doUnit s i).fibers i = s.nodes.length := by
      simp [resolvedHost, doUnit_fibers_self hf, hpar]
    have hQ1 := hQ (doUnit s i) s.fibers.length i (createDom f.element)
      hwfcs hchain hi hfwd1 (by rw [hres]; exact hnb)
    rw [hres, hlen1] at hQ1
    obtain ⟨hQlen, hQfr, hQhp, hQdec, hQfwd⟩ := hQ1
    refine ⟨?_, ?_, ?_, ?_, ?_⟩
    · show (processL cs (doUnit s i) s.fibers.length).nodes.length = _
      rw [hQlen]
      simp [elemCount]
      omega
    · intro m hm hne
      show (processL cs (doUnit s i) s.fibers.length).nodes[m]? = _
      rw [hQfr m (by omega) (by omega), hfr1 m hm hne]
    · show (processL cs (doUnit s i)
          s.fibers.length).nodes[resolvedHost s.fibers pIdx]? = _
      rw [hQfr _ (by omega) (by omega), hhp1]
    · show decodeList (processL cs (doUnit s i) s.fibers.length).nodes
        (elemCount (.mk t pr cs)) [s.nodes.length] = _
      have hfinb : (processL cs (doUnit s i)
          s.fibers.length).nodes[s.nodes.length]? =
          some { createDom f.element with
                 childNodes := rootIdxs cs (s.nodes.length + 1) } := by
        rw [hQhp]
        simp
      have hdec := decodeList_cons hfinb hQdec
        (decodeList_nil (processL cs (doUnit s i) s.fibers.length).nodes
          (childCount cs))
      rw [show elemCount (.mk t pr cs) = childCount cs + 1 from
        by simp [elemCount, Nat.add_comm]]
      rw [show hostTreeOf (.mk t pr cs) =
        HostTree.node (createDom (Element.mk t pr cs)).tag
          (createDom (Element.mk t pr cs)).props (hostTreesOf cs) from rfl]
      rw [hel] at hdec
      exact hdec
    · exact hQfwd
  · -- empty chain: the arena is untouched
    intro s j iP hqn hwf hchain hiP hfwd hhq
    refine ⟨?_, fun m hm hne => rfl, ?_, ?_, hfwd⟩
    · show s.nodes.length = s.nodes.length + childCount ([] : List Child)
      simp [childCount]
    · show s.nodes[resolvedHost s.fibers iP]? = _
      simpa [rootIdxs] using hhq
    · show decodeList s.nodes (childCount ([] : List Child))
        (rootIdxs [] s.nodes.length) = some (hostTreesOf [])
      rw [show rootIdxs [] s.nodes.length = [] from rfl, decodeList_nil]
      rfl
  · -- chain headed by an element child
    intro c r hP hQ s j iP hqn hwf hchain hiP hfwd hhq
    obtain ⟨hwfc, hwfr⟩ := wf_of_wfChildren_cons hwf
    simp only [ChainAt] at hchain
    obtain ⟨hc1, hc2⟩ := hchain
    have hj : j < s.fibers.length := getElem?_some_lt hc1
    have hqlt : resolvedHost s.fibers iP < s.nodes.length :=
      getElem?_some_lt hhq
    have hP1 := hP s j iP _ hqn hwfc hc1 rfl rfl hiP hfwd hhq
    obtain ⟨hPlen, hPfr, hPhp, hPdec, hPfwd⟩ := hP1
    have hFf := frames_all.1 c s j _ hwfc hc1 rfl
    have hchain2 : ChainAt (processT c s j).fibers (j + 1) r iP := by
      refine chainAt_mono r (j + 1) iP s.fibers _ hc2 ?_
      intro m rec hm hsome
      rw [hFf.2.1 m (getElem?_some_lt hsome) (by omega)]
      exact hsome
    have hresP : resolvedHost (processT c s j).fibers iP =
        resolvedHost s.fibers iP :=
      resolvedHost_congr (hFf.2.1 iP (by omega) (by omega))
    have hQ1 := hQ (processT c s j) (j + 1) iP
      { hqn with childNodes := hqn.childNodes ++ [s.nodes.length] }
      hwfr hchain2 (by omega) hPfwd (by rw [hresP]; exact hPhp)
    rw [hresP, hPlen] at hQ1
    obtain ⟨hQlen, hQfr, hQhp, hQdec, hQfwd⟩ := hQ1
    refine ⟨?_, ?_, ?_, ?_, ?_⟩
    · show (processL r (processT c s j) (j + 1)).nodes.length = _
      rw [hQlen]
      simp [childCount]
      omega
    · intro m hm hne
      show (processL r (processT c s j) (j + 1)).nodes[m]? = _
      rw [hQfr m (by omega) hne, hPfr m hm hne]
    · show (processL r (processT c s j)
          (j + 1)).nodes[resolvedHost s.fibers iP]? = _
      rw [hQhp]
      rw [show rootIdxs (.elemC c :: r) s.nodes.length =
        s.nodes.length :: rootIdxs r (s.nodes.length + elemCount c) from rfl]
      simp
    · -- decode: the head's block survives mounting the rest of the chain
      have hstable : decodeList
          (processL r (processT c s j) (j + 1)).nodes
          (elemCount c) [s.nodes.length] = some [hostTreeOf c] := by
        refine decodeList_stable hPfwd (elemCount c) s.nodes.length _ _
          (by simp) hPdec ?_
        intro m n hm hdef
        have hmlt : m < (processT c s j).nodes.length := getElem?_some_lt hdef
        rw [hPlen] at hmlt
        rw [hQfr m (by omega) (by omega)]
        exact hdef
      obtain ⟨f0, n, kids, rest, hf0, hn, hk, hr, hts⟩ :=
        decodeList_cons_inv hstable
      simp only [List.cons.injEq] at hts
      obtain ⟨hts1, hts2⟩ := hts
      have hkmono := decodeList_mono f0 hk
        (show f0 ≤ f0 + childCount r by omega)
      have hrmono := decodeList_mono (childCount r) hQdec
        (show childCount r ≤ f0 + childCount r by omega)
      have hcons := decodeList_cons hn hkmono hrmono
      show decodeList (processL r (processT c s j) (j + 1)).nodes
        (childCount (.elemC c :: r)) (rootIdxs (.elemC c :: r) s.nodes.length)
        = some (hostTreesOf (.elemC c :: r))
      rw [show childCount (.elemC c :: r) = f0 + childCount r + 1 from
        by simp [childCount]; omega]
      rw [show rootIdxs (.elemC c :: r) s.nodes.length =
        s.nodes.length :: rootIdxs r (s.nodes.length + elemCount c) from rfl]
      rw [show hostTreesOf (.elemC c :: r) =
        hostTreeOf c :: hostTreesOf r from rfl]
      rw [hts1]
      exact hcons
    · exact hQfwd
  · intro r hQ s j iP hqn hwf hchain hiP hfwd hhq
    simp [ChainAt] at hchain
  · intro q r hQ s j iP hqn hwf hchain hiP hfwd hhq
    simp [ChainAt] at hchain

/-! ### The full mount pass -/

theorem forward_init : Forward initState.nodes := by
  intro m n hm j hj
  cases m with
  | zero =>
    simp only [initState, List.getElem?_cons_zero, Option.some.injEq] at hm
    subst hm
    simp at hj
  | succ k => simp [initState] at hm

/-- After exactly `elemCount e` iterations from a fresh mount, the host
arena of the reference run holds one node per non-root element, the
container decoding to the expected host forest. -/
theorem mount_nodes (t : String) (pr : List (String × Prim))
    (cs : List Child) (hwfcs : wfChildren cs = true) :
    (processT (.mk t pr cs) (mount (.mk t pr cs) initState) 0).nodes.length
      = elemCount (.mk t pr cs) ∧
    decodeList
      (processT (.mk t pr cs) (mount (.mk t pr cs) initState) 0).nodes
      (elemCount (.mk t pr cs)) [0] =
      some [.node (some "ROOT") [] (hostTreesOf cs)] := by
  have hf0 : (mount (.mk t pr cs) initState).fibers[0]? = some
      { element := .mk t pr cs, parent := none, child := none
        sibling := none, hostNode := none } := rfl
  have hnr : (doUnit (mount (.mk t pr cs) initState) 0).nodes =
      (mount (.mk t pr cs) initState).nodes :=
    doUnit_nodes_root hf0 rfl
  have hchain : ChainAt
      (doUnit (mount (.mk t pr cs) initState) 0).fibers 1 cs 0 := by
    apply chainAt_drop _ _ _ _ hwfcs
    exact doUnit_fibers_drop hf0
  have hfwd0 : Forward (doUnit (mount (.mk t pr cs) initState) 0).nodes := by
    rw [hnr]
    exact forward_init
  have hres0 : resolvedHost
      (doUnit (mount (.mk t pr cs) initState) 0).fibers 0 = 0 := by
    simp [resolvedHost, doUnit_fibers_self hf0]
  have hhq0 : (doUnit (mount (.mk t pr cs) initState) 0).nodes[resolvedHost
      (doUnit (mount (.mk t pr cs) initState) 0).fibers 0]? =
      some { tag := some "ROOT", props := [], childNodes := [] } := by
    rw [hres0, hnr]
    rfl
  have hNQ := nodes_all.2 cs (doUnit (mount (.mk t pr cs) initState) 0) 1 0
    { tag := some "ROOT", props := [], childNodes := [] }
    hwfcs hchain (by omega) hfwd0 hhq0
  rw [hres0] at hNQ
  have hlen0 : (doUnit (mount (.mk t pr cs) initState) 0).nodes.length = 1 := by
    rw [hnr]
    rfl
  rw [hlen0] at hNQ
  obtain ⟨hQlen, hQfr, hQhp, hQdec, hQfwd⟩ := hNQ
  constructor
  · show (processL cs (doUnit (mount (.mk t pr cs) initState) 0)
      1).nodes.length = _
    rw [hQlen]
    simp [elemCount, Nat.add_comm]
  · have hfinb : (processL cs (doUnit (mount (.mk t pr cs) initState) 0)
        1).nodes[0]? =
        some { tag := some "ROOT", props := [], childNodes := rootIdxs cs 1 } := by
      rw [hQhp]
      simp
    have hdec := decodeList_cons hfinb hQdec
      (decodeList_nil _ (childCount cs))
    show decodeList (processL cs (doUnit (mount (.mk t pr cs) initState) 0)
        1).nodes (elemCount (.mk t pr cs)) [0] = _
    rw [show elemCount (.mk t pr cs) = childCount cs + 1 from
      by simp [elemCount, Nat.add_comm]]
    exact hdec

/-- The whole mount pass: cursor exhausted and host tree correct after
`elemCount e` iterations of the while loop from a fresh mount. -/
theorem mount_steps (e : Element) (hwf : wfElem e = true) :
    (steps (elemCount e) (mount e initState)).nextUnitOfWork = none ∧
    (steps (elemCount e) (mount e initState)).nodes.length = elemCount e ∧
    decodeList (steps (elemCount e) (mount e initState)).nodes (elemCount e)
      [0] = some [.node (some "ROOT") [] (hostTreesOf e.children)] := by
  have hf0 : (mount e initState).fibers[0]? = some
      { element := e, parent := none, child := none
        sibling := none, hostNode := none } := rfl
  have hsim := simulation_all.1 e (mount e initState) 0 _ hwf hf0 rfl rfl
  have hFP := frames_all.1 e (mount e initState) 0 _ hwf hf0 rfl
  obtain ⟨ch, hn, hself⟩ := hFP.2.2
  have hasc : ascend (processT e (mount e initState) 0).fibers 0 = none := by
    rw [ascend_eq, hself]
  rw [hasc] at hsim
  rw [hsim]
  cases e with
  | mk t pr cs =>
    have hwfcs : wfChildren cs = true := by simpa [wfElem] using hwf
    obtain ⟨hL, hD⟩ := mount_nodes t pr cs hwfcs
    exact ⟨rfl, hL, hD⟩

/-! ### From scheduler invocations to loop iterations -/

theorem workLoopGo_steps : ∀ (d : List Int) (s : MState),
    ∃ k, (workLoopGo d s).1 = steps k s ∧
      (s.nextUnitOfWork ≠ none → 1 ≤ k) := by
  intro d
  induction d with
  | nil =>
    intro s
    cases h : s.nextUnitOfWork with
    | none => exact ⟨0, by simp [workLoopGo, h, steps], by simp [h]⟩
    | some i =>
      exact ⟨1, by simp [workLoopGo, h, steps, step], fun _ => le_rfl⟩
  | cons r rest ih =>
    intro s
    cases h : s.nextUnitOfWork with
    | none => exact ⟨0, by simp [workLoopGo, h, steps], by simp [h]⟩
    | some i =>
      by_cases hr : r < 1
      · exact ⟨1, by simp [workLoopGo, h, hr, steps, step], fun _ => le_rfl⟩
      · obtain ⟨k, hk, -⟩ := ih (performUnitOfWork s i)
        refine ⟨k + 1, ?_, fun _ => by omega⟩
        have hgo : (workLoopGo (r :: rest) s).1 =
            (workLoopGo rest (performUnitOfWork s i)).1 := by
          simp [workLoopGo, h, hr]
        rw [hgo, hk, steps_succ, step_of_some h]

theorem foldl_workLoop_steps : ∀ (ds : List (List Int)) (s : MState),
    ∃ K, ds.foldl (fun s d => (workLoop d s).1) s = steps K s ∧
      (ds.length ≤ K ∨ (steps K s).nextUnitOfWork = none) := by
  intro ds
  induction ds with
  | nil => exact fun s => ⟨0, rfl, Or.inl (le_refl 0)⟩
  | cons d ds' ih =>
    intro s
    obtain ⟨k, hk, hk1⟩ := workLoopGo_steps d s
    obtain ⟨K', hK', hdisj⟩ := ih (steps k s)
    refine ⟨k + K', ?_, ?_⟩
    · show List.foldl _ ((workLoop d s).1) ds' = _
      have hw : (workLoop d s).1 = steps k s := hk
      rw [hw, hK', ← steps_add]
    · cases hcur : s.nextUnitOfWork with
      | none =>
        right
        rw [steps_of_none hcur]
        exact hcur
      | some i =>
        have h1 : 1 ≤ k := hk1 (by simp [hcur])
        cases hdisj with
        | inl hlen =>
          left
          simp only [List.length_cons]
          omega
        | inr hdone =>
          right
          rw [steps_add]
          exact hdone

/-- C2: for every well-formed root element, once the number of scheduler
invocations reaches the element count of the tree (each invocation
processes at least one fiber, whatever its budget), the pending cursor is
none and the host tree holds exactly one node per non-root element —
`nodes.length = elemCount e` counts the container plus one node for every
element except the root — each attached under its parent element's host
node (the container for the root's children), with properties equal to
the source element's attributes minus the `children` key: the container
decodes to exactly the expected host forest. -/
theorem claim_C2 (e : Element) (hwf : wfElem e = true)
    (ds : List (List Int)) (hlen : elemCount e ≤ ds.length) :
    ((ds.foldl (fun s d => (workLoop d s).1)
        (mount e initState)).nextUnitOfWork = none) ∧
    ((ds.foldl (fun s d => (workLoop d s).1)
        (mount e initState)).nodes.length = elemCount e) ∧
    decodeList (ds.foldl (fun s d => (workLoop d s).1)
        (mount e initState)).nodes
      ((ds.foldl (fun s d => (workLoop d s).1)
        (mount e initState)).nodes.length) [0] =
      some [.node (some "ROOT") [] (hostTreesOf e.children)] := by
  obtain ⟨hdone, hlenT, hdec⟩ := mount_steps e hwf
  obtain ⟨K, hK, hdisj⟩ := foldl_workLoop_steps ds (mount e initState)
  have key : steps K (mount e initState) =
      steps (elemCount e) (mount e initState) := by
    rcases le_or_lt (elemCount e) K with h | h
    · exact steps_absorb hdone h
    · cases hdisj with
      | inl hl => omega
      | inr hd => exact (steps_absorb hd (le_of_lt h)).symm
  rw [hK, key]
  refine ⟨hdone, hlenT, ?_⟩
  rw [hlenT]
  exact hdec

theorem claim_C2_witness :
    wfElem exampleTree = true ∧
    elemCount exampleTree ≤ c2ds.length ∧
    (c2final.nextUnitOfWork = none ∧
     c2final.nodes.length = elemCount exampleTree ∧
     decodeList c2final.nodes c2final.nodes.length [0] =
       some [.node (some "ROOT") [] (hostTreesOf exampleTree.children)]) :=
  ⟨rfl, by decide, claim_C2 exampleTree rfl c2ds (by decide)⟩

end Didact
